import Mathlib

/-
Verification development for the NovelReader repository.

The repository holds two near-duplicate implementations of the same
application: reader.js and an unnamed sibling file (called p0 below).
The definitions in this file are shallow embeddings of the functions of
those two files: the parsed HTML document is modelled as a rose tree of
element and text nodes, querySelectorAll as a preorder traversal with the
eight fixed selector shapes of CONFIG.SELECTORS, and the stateful parts
of the NovelReader class as explicit state-passing functions.
-/

/-- A parsed DOM node: an element with a tag, an attribute list and
children, or a text node. -/
inductive Node where
  | elem : String → List (String × String) → List Node → Node
  | text : String → Node

def Node.tagOf : Node → String
  | .elem t _ _ => t
  | .text _ => ""

def Node.attrsOf : Node → List (String × String)
  | .elem _ a _ => a
  | .text _ => []

def Node.childrenOf : Node → List Node
  | .elem _ _ c => c
  | .text _ => []

/-- getAttribute: first binding of the attribute name, none if absent. -/
def getAttr (a : List (String × String)) (name : String) : Option String :=
  a.lookup name

/-- Serialize an attribute list back to markup text. -/
def serializeAttrs : List (String × String) → String
  | [] => ""
  | (n, v) :: rest => " " ++ n ++ "=\"" ++ v ++ "\"" ++ serializeAttrs rest

mutual

/-- innerHTML-style serialization of one node. -/
def serializeN : Node → String
  | Node.text s => s
  | Node.elem t a c => "<" ++ t ++ serializeAttrs a ++ ">" ++ serializeL c ++ "</" ++ t ++ ">"

/-- innerHTML-style serialization of a node list. -/
def serializeL : List Node → String
  | [] => ""
  | n :: rest => serializeN n ++ serializeL rest

end

mutual

/-- textContent of one node. -/
def textContentN : Node → String
  | Node.text s => s
  | Node.elem _ _ c => textContentL c

/-- textContent of a node list: all text descendants, document order. -/
def textContentL : List Node → String
  | [] => ""
  | n :: rest => textContentN n ++ textContentL rest

end

/-- Boolean list-prefix test. -/
def pfxB : List Char → List Char → Bool
  | [], _ => true
  | _ :: _, [] => false
  | c :: cs, d :: ds => c == d && pfxB cs ds

/-- Boolean substring test on char lists, used by the CSS substring
attribute operator. -/
def subB (nd : List Char) : List Char → Bool
  | [] => pfxB nd []
  | c :: rest => pfxB nd (c :: rest) || subB nd rest

/-- CSS substring test on strings. -/
def strHasSub (hay nd : String) : Bool :=
  subB nd.data hay.data

/-- The three selector shapes occurring in CONFIG.SELECTORS. -/
inductive Sel where
  | tagAttr : String → String → String → Sel
  | tagOnly : String → Sel
  | idDesc : String → String → Sel

/-- Does an element with the given tag, attributes and ancestor id list
match a selector? The ancestor id list holds the ids of proper ancestors,
as required by the descendant combinator of the hash selectors. -/
def selMatches : Sel → String → List (String × String) → List String → Bool
  | .tagAttr tg an nd, t, a, _ =>
      t == tg && (match getAttr a an with
        | some v => strHasSub v nd
        | none => false)
  | .tagOnly tg, t, _, _ => t == tg
  | .idDesc i tg, t, _, anc => t == tg && anc.contains i

/-- The fixed ordered selector list of CONFIG.SELECTORS, most specific
first. -/
def cfgSelectors : List Sel :=
  [ Sel.tagAttr ("section") ("class") ("chapter"),
    Sel.tagAttr ("div") ("class") ("chapter"),
    Sel.tagAttr ("section") ("id") ("chapter"),
    Sel.tagAttr ("div") ("id") ("chapter"),
    Sel.tagOnly ("article"),
    Sel.tagOnly ("section"),
    Sel.idDesc ("content") ("section"),
    Sel.idDesc ("main") ("section") ]

mutual

/-- querySelectorAll step on one node: the node itself if it matches,
followed by the matches among its descendants, its own id joining the
ancestor id list of its children. -/
def qsaN (sel : Sel) (anc : List String) : Node → List Node
  | Node.text _ => []
  | Node.elem t a c =>
      (if selMatches sel t a anc then [Node.elem t a c] else [])
        ++ qsaL sel (match getAttr a ("id") with
            | some i => i :: anc
            | none => anc) c

/-- querySelectorAll over a node list: preorder, hence document order. -/
def qsaL (sel : Sel) (anc : List String) : List Node → List Node
  | [] => []
  | n :: rest => qsaN sel anc n ++ qsaL sel anc rest

end

/-- A parsed document: its title and its body element. DOMParser with
type text-html always materializes a body element. -/
structure Doc where
  title : String
  body : Node

def qsaDoc (d : Doc) (sel : Sel) : List Node :=
  qsaL sel [] [d.body]

mutual

/-- querySelector by tag list on one node. -/
def findHeadingN (tags : List String) : Node → Option Node
  | Node.text _ => none
  | Node.elem t a c =>
      if tags.contains t then some (Node.elem t a c)
      else findHeadingL tags c

/-- First element, preorder, whose tag is in the given list. -/
def findHeadingL (tags : List String) : List Node → Option Node
  | [] => none
  | n :: rest =>
      match findHeadingN tags n with
      | some h => some h
      | none => findHeadingL tags rest

end

/-- The whitespace class trimmed by the JavaScript trim method (the
subset relevant to this model). -/
def jsWS (c : Char) : Bool :=
  c == ' ' || c == '\t' || c == '\n' || c == '\r' || c == '\x0b' || c == '\x0c'

/-- JavaScript String.prototype.trim. -/
def jsTrim (s : String) : String :=
  String.mk (((s.data.dropWhile jsWS).reverse.dropWhile jsWS).reverse)

/-- The five element names removed by the fallback sanitizer of p0. -/
def dangerousTags : List String :=
  [("script"), ("style"), ("iframe"), ("object"), ("embed")]

mutual

/-- The fallback sanitizer of p0 on one node: a dangerous element is
removed with its whole subtree, any other node is kept and its children
sanitized. -/
def removeDangerousN : Node → List Node
  | Node.text s => [Node.text s]
  | Node.elem t a c =>
      if dangerousTags.contains t then []
      else [Node.elem t a (removeDangerousL c)]

/-- The fallback sanitizer of p0 (sanitizeContent without DOMPurify):
querySelectorAll for the dangerous tags and removal of every hit; the net
effect on the tree is removal of every dangerous element subtree at any
depth, and nothing else changes. -/
def removeDangerousL : List Node → List Node
  | [] => []
  | n :: rest => removeDangerousN n ++ removeDangerousL rest

end

mutual

/-- Checker on one node: no dangerous element at any depth. -/
def noDangerousN : Node → Bool
  | Node.text _ => true
  | Node.elem t _ c => !(dangerousTags.contains t) && noDangerousL c

/-- Checker on a node list: no dangerous element at any depth. -/
def noDangerousL : List Node → Bool
  | [] => true
  | n :: rest => noDangerousN n && noDangerousL rest

end

mutual

/-- Checker on one node: some attribute named with a data- prefix occurs
at any depth. -/
def hasDataAttrN : Node → Bool
  | Node.text _ => false
  | Node.elem _ a c => a.any (fun p => pfxB ("data-").data p.1.data) || hasDataAttrL c

/-- Checker on a node list: some data- attribute occurs at any depth. -/
def hasDataAttrL : List Node → Bool
  | [] => false
  | n :: rest => hasDataAttrN n || hasDataAttrL rest

end

/-- p0 sanitizeContent at string level: sanitize the fragment tree and
serialize it back. -/
def sanitizeContentP0 (ns : List Node) : String :=
  serializeL (removeDangerousL ns)

/-- Case-insensitive char equality, as the gi regex flags demand. -/
def lcEq (a b : Char) : Bool :=
  a.toLower == b.toLower

/-- Case-insensitive list-prefix test. -/
def pfxCI : List Char → List Char → Bool
  | [], _ => true
  | _ :: _, [] => false
  | c :: cs, d :: ds => lcEq c d && pfxCI cs ds

/-- Scan for the closing script tag as the lazy dot-star does: smallest
offset at which it starts, failing on a newline first since the dot of
the regex does not match newlines. Returns the offset. -/
def findCloseScript : List Char → Option Nat
  | [] => none
  | c :: rest =>
      if pfxCI ("</script>").data (c :: rest) then some 0
      else if c == '\n' then none
      else match findCloseScript rest with
        | some n => some (n + 1)
        | none => none

/-- Length of a match of the script-removal regex of reader.js starting
at the head of the list, if any: open tag, a run of non-gt chars, gt,
lazily the nearest closing tag. -/
def matchScriptAt (cs : List Char) : Option Nat :=
  if pfxCI ("<script").data cs then
    let rest := cs.drop 7
    let attrsLen := (rest.takeWhile (fun c => !(c == '>'))).length
    let rest2 := rest.drop attrsLen
    match rest2 with
    | [] => none
    | _ :: rest3 =>
        match findCloseScript rest3 with
        | some j => some (7 + attrsLen + 1 + j + 9)
        | none => none
  else none

/-- Global regex replacement with the empty string: walk the text, and at
each position remove a match if one starts there, else keep the char.
Fuel bounds the recursion; the callers pass the text length, which is
enough because every step consumes at least one char. -/
def remScripts : Nat → List Char → List Char
  | 0, cs => cs
  | _, [] => []
  | fuel + 1, c :: rest =>
      match matchScriptAt (c :: rest) with
      | some len => remScripts fuel ((c :: rest).drop len)
      | none => c :: remScripts fuel rest

/-- reader.js sanitizeContent: strip script blocks by regex, then trim. -/
def sanitizeContentJS (s : String) : String :=
  jsTrim (String.mk (remScripts s.data.length s.data))

/-- A chapter record of reader.js parseNovelHTML. -/
structure ChapterJS where
  id : Nat
  title : String
  content : String
deriving DecidableEq

/-- A chapter record of p0 extractChapters. -/
structure ChapterP0 where
  title : String
  content : String
deriving DecidableEq

/-- The novel record reader.js parseNovelHTML returns. -/
structure NovelJS where
  title : String
  chapters : List ChapterJS
deriving DecidableEq

/-- reader.js chapter title: text of the first h1-h4 descendant, trimmed,
or the synthesized default when absent or empty. -/
def titleJS (e : Node) (i : Nat) : String :=
  match findHeadingL [("h1"), ("h2"), ("h3"), ("h4")] e.childrenOf with
  | some h =>
      let t := jsTrim (textContentL h.childrenOf)
      if t == "" then "Chapter " ++ toString (i + 1) else t
  | none => "Chapter " ++ toString (i + 1)

/-- Replace every dash and underscore by a space. -/
def replaceDU (s : String) : String :=
  String.mk (s.data.map (fun c => if c == '-' || c == '_' then ' ' else c))

/-- p0 extractChapterTitle: first h1-h6 descendant text trimmed even when
empty, else the data-title, title or id attribute with separators turned
into spaces, else the synthesized default. -/
def titleP0 (e : Node) (i : Nat) : String :=
  match findHeadingL [("h1"), ("h2"), ("h3"), ("h4"), ("h5"), ("h6")] e.childrenOf with
  | some h => jsTrim (textContentL h.childrenOf)
  | none =>
      let c1 := (getAttr e.attrsOf ("data-title")).getD ("")
      let c2 := if c1 == "" then (getAttr e.attrsOf ("title")).getD ("") else c1
      let c3 := if c2 == "" then (getAttr e.attrsOf ("id")).getD ("") else c2
      if c3 == "" then "Chapter " ++ toString (i + 1) else jsTrim (replaceDU c3)

/-- p0 chapter record for matched element e at zero-based position i. -/
def chapterP0 (ie : Nat × Node) : ChapterP0 :=
  ⟨titleP0 ie.2 ie.1, sanitizeContentP0 ie.2.childrenOf⟩

def chaptersFromEls (els : List Node) : List ChapterP0 :=
  els.enum.map chapterP0

/-- p0 extractChapters selector loop: the first selector with a nonempty
match set yields one chapter per matched element and ends the loop. -/
def extractLoopP0 (d : Doc) : List Sel → List ChapterP0
  | [] => []
  | sel :: rest =>
      if 0 < (qsaDoc d sel).length then chaptersFromEls (qsaDoc d sel)
      else extractLoopP0 d rest

/-- p0 extractChapters with its whole-body fallback. -/
def extractChapters (d : Doc) : List ChapterP0 :=
  let cs := extractLoopP0 d cfgSelectors
  if cs.isEmpty then [⟨("Chapter 1"), sanitizeContentP0 d.body.childrenOf⟩]
  else cs

/-- reader.js per-element loop body: the push is guarded by truthiness of
both the title and the raw inner markup, so an element with empty
innerHTML yields no chapter. -/
def buildChaptersJS : List (Nat × Node) → List ChapterJS
  | [] => []
  | (i, e) :: rest =>
      if titleJS e i != "" && serializeL e.childrenOf != "" then
        ⟨i + 1, titleJS e i, sanitizeContentJS (serializeL e.childrenOf)⟩ :: buildChaptersJS rest
      else buildChaptersJS rest

/-- reader.js parseNovelHTML selector loop: break after the first
selector with a nonempty match set, whatever its guarded loop pushed. -/
def parseLoopJS (d : Doc) : List Sel → List ChapterJS
  | [] => []
  | sel :: rest =>
      if 0 < (qsaDoc d sel).length then buildChaptersJS (qsaDoc d sel).enum
      else parseLoopJS d rest

/-- reader.js whole-body fallback chapter. -/
def fallbackChapterJS (d : Doc) : ChapterJS :=
  ⟨1, (if jsTrim d.title != "" then jsTrim d.title else "Novel Content"),
    sanitizeContentJS (serializeL d.body.childrenOf)⟩

/-- reader.js parseNovelHTML. -/
def parseNovelHTML (d : Doc) : NovelJS :=
  ⟨(if jsTrim d.title != "" then jsTrim d.title else "Untitled Novel"),
    if (parseLoopJS d cfgSelectors).isEmpty then [fallbackChapterJS d]
    else parseLoopJS d cfgSelectors⟩

/-- The match set of the first selector that matches at all. -/
def firstMatch (d : Doc) : List Sel → Option (List Node)
  | [] => none
  | sel :: rest =>
      if 0 < (qsaDoc d sel).length then some (qsaDoc d sel)
      else firstMatch d rest

/-- Reading session state: current chapter index and scroll fraction. -/
structure RState where
  currentChapter : Int
  currentPosition : ℚ
deriving DecidableEq

/-- reader.js goToChapter: in range, set the index and display the
chapter, whose displayChapter body resets the fraction to zero; out of
range, change nothing. -/
def goToChapterJS (numChapters : Nat) (s : RState) (index : Int) : RState :=
  if 0 ≤ index ∧ index < (numChapters : Int) then ⟨index, 0⟩ else s

/-- p0 displayChapter as a state transition: the guard rejects an index
out of range; in range it sets the index, and the fraction is preserved,
the deferred restoreScrollPosition call applying the existing fraction to
the new chapter instead of resetting it. -/
def displayChapterP0 (numChapters : Nat) (s : RState) (index : Int) : RState :=
  if index < 0 ∨ (numChapters : Int) ≤ index then s
  else ⟨index, s.currentPosition⟩

/-- The persisted progress record. -/
structure ProgressRec where
  novel : String
  chapter : Int
  position : ℚ
deriving DecidableEq

/-- reader.js loadReadingProgress: on a title match, copy the stored
chapter and position into the state and navigate with goToChapter; the
later restore guard reads the position goToChapter just reset, so it
never fires on the in-range path. -/
def loadReadingProgressJS (title : String) (numChapters : Nat) (s : RState)
    (store : Option ProgressRec) : RState :=
  match store with
  | none => s
  | some d =>
      if d.novel == title then
        goToChapterJS numChapters ⟨d.chapter, d.position⟩ d.chapter
      else s

/-- reader.js load path: displayChapter 0 zeroes the fraction, then
loadReadingProgress runs. -/
def loadSequenceJS (title : String) (numChapters : Nat) (s : RState)
    (store : Option ProgressRec) : RState :=
  loadReadingProgressJS title numChapters ⟨s.currentChapter, 0⟩ store

/-- p0 saveProgress. -/
def saveProgressP0 (title : String) (s : RState) : Option ProgressRec :=
  some ⟨title, s.currentChapter, s.currentPosition⟩

/-- p0 loadProgress: on a title match copy the stored chapter and
position into the state. -/
def loadProgressP0 (title : String) (s : RState)
    (store : Option ProgressRec) : RState :=
  match store with
  | none => s
  | some d => if d.novel == title then ⟨d.chapter, d.position⟩ else s

/-- p0 load path, store threaded explicitly: processFile zeroes the
state, displayChapter 0 runs saveProgress, overwriting the stored record,
and only then does showReaderInterface call loadProgress, which therefore
reads the overwritten record. The prior store is dead. -/
def loadSequenceP0 (title : String) (_store : Option ProgressRec) :
    RState × Option ProgressRec :=
  let s0 : RState := ⟨0, 0⟩
  let store1 := saveProgressP0 title s0
  (loadProgressP0 title s0 store1, store1)

/-- A bookmark record of p0. -/
structure Bookmark where
  novelTitle : String
  chapterIndex : Nat
  chapterTitle : String
  timestamp : Nat
deriving DecidableEq

/-- The findIndex predicate of p0 toggleBookmark. -/
def bmMatches (title : String) (cur : Nat) (b : Bookmark) : Bool :=
  b.novelTitle == title && b.chapterIndex == cur

/-- JavaScript findIndex: zero-based index of the first hit, none when
there is none. -/
def findIndex (p : α → Bool) : List α → Option Nat
  | [] => none
  | a :: l => if p a then some 0 else (findIndex p l).map (fun n => n + 1)

/-- p0 toggleBookmark: splice out the first record of the current pair if
one exists, else push a fresh record carrying the current time. -/
def toggleBookmark (title : String) (cur : Nat) (chTitle : String)
    (now : Nat) (bs : List Bookmark) : List Bookmark :=
  match findIndex (bmMatches title cur) bs with
  | some i => bs.eraseIdx i
  | none => bs ++ [⟨title, cur, chTitle, now⟩]

/-- The identifying key of a bookmark. -/
def bmKey (b : Bookmark) : String × Nat :=
  (b.novelTitle, b.chapterIndex)

/-- JavaScript Math.round. -/
def jsRound (q : ℚ) : ℤ :=
  Int.floor (q + 1 / 2)

/-- reader.js handleScrollDebounced: the stored fraction, computed from
the scroll metrics with four-decimal rounding and no clamping. -/
def handleScrollDebounced (scrollTop scrollHeight clientHeight : ℚ) : ℚ :=
  if clientHeight < scrollHeight then
    ((jsRound (scrollTop / (scrollHeight - clientHeight) * 10000) : ℚ)) / 10000
  else 0

/-- p0 updateProgress: the stored fraction, the raw ratio of scrollTop to
maximum scroll offset with no clamping; when the content does not scroll
the previous fraction is kept. -/
def updateProgressP0 (scrollTop scrollHeight clientHeight pos : ℚ) : ℚ :=
  if 0 < scrollHeight - clientHeight then scrollTop / (scrollHeight - clientHeight)
  else pos

def cfgThemes : List String := [("light"), ("dark"), ("sepia")]

def cfgFonts : List String := [("serif"), ("sans"), ("mono")]

/-- The persisted display settings. -/
structure Settings where
  theme : String
  font : String
  fontSize : Int
deriving DecidableEq

/-- setTheme of both variants: guard on the theme list, then mutate and
persist; an unknown theme returns before any effect. -/
def setTheme (s : Settings) (store : Option Settings) (t : String) :
    Settings × Option Settings :=
  if cfgThemes.contains t then
    ({ s with theme := t }, some { s with theme := t })
  else (s, store)

/-- setFont of both variants, same shape as setTheme. -/
def setFont (s : Settings) (store : Option Settings) (f : String) :
    Settings × Option Settings :=
  if cfgFonts.contains f then
    ({ s with font := f }, some { s with font := f })
  else (s, store)

/-- Auto-advance machine state: the chapter counters, the single slot
holding the id of the pending timeout, the list of timer ids scheduled in
the runtime and neither cleared nor fired, and a fresh-id counter. -/
structure AAState where
  currentChapter : Nat
  numChapters : Nat
  slot : Option Nat
  live : List Nat
  nextId : Nat
deriving DecidableEq

/-- p0 checkAutoAdvance on a debounced scroll sample: return early at the
last chapter; near the bottom, clear any pending timeout and schedule a
fresh one; otherwise clear any pending timeout. -/
def checkAutoAdvance (s : AAState) (scrollTop clientHeight scrollHeight : Int) : AAState :=
  if s.numChapters ≤ s.currentChapter + 1 then s
  else if scrollHeight - 100 ≤ scrollTop + clientHeight then
    { s with
      live := (match s.slot with
        | some i => s.live.erase i
        | none => s.live) ++ [s.nextId],
      slot := some s.nextId,
      nextId := s.nextId + 1 }
  else
    match s.slot with
    | some i => { s with live := s.live.erase i, slot := none }
    | none => s

/-- The runtime firing a timer: only a scheduled, uncleared timer runs
its callback, which advances when not at the last chapter and nulls the
slot. -/
def fireAutoAdvance (s : AAState) (tid : Nat) : AAState :=
  if s.live.contains tid then
    if s.currentChapter + 1 < s.numChapters then
      { s with live := s.live.erase tid, slot := none,
               currentChapter := s.currentChapter + 1 }
    else { s with live := s.live.erase tid, slot := none }
  else s

/-- External events of the auto-advance machine: a debounced scroll
sample carrying the scroll metrics, or the runtime firing timer tid. -/
inductive AAEvent where
  | scroll : Int → Int → Int → AAEvent
  | fire : Nat → AAEvent

def stepAA (s : AAState) : AAEvent → AAState
  | .scroll st ch sh => checkAutoAdvance s st ch sh
  | .fire tid => fireAutoAdvance s tid

def runAA (s : AAState) (evs : List AAEvent) : AAState :=
  evs.foldl stepAA s

def initAA (n : Nat) : AAState :=
  ⟨0, n, none, [], 0⟩

/-- The single-slot timer invariant: the live timer list is empty with an
empty slot, or holds exactly the slot id. -/
def invAA (s : AAState) : Prop :=
  (s.slot = none ∧ s.live = []) ∨ (∃ i, s.slot = some i ∧ s.live = [i])

theorem firstMatch_pos (d : Doc) :
    ∀ (L : List Sel) (els : List Node), firstMatch d L = some els → 0 < els.length
  | [], els => by intro h; exact absurd h (by simp [firstMatch])
  | sel :: rest, els => by
      intro h
      by_cases hq : 0 < (qsaDoc d sel).length
      · simp only [firstMatch] at h
        rw [if_pos hq] at h
        injection h with h
        rw [← h]
        exact hq
      · simp only [firstMatch] at h
        rw [if_neg hq] at h
        exact firstMatch_pos d rest els h

theorem extractLoopP0_of_firstMatch (d : Doc) :
    ∀ (L : List Sel) (els : List Node), firstMatch d L = some els →
      extractLoopP0 d L = chaptersFromEls els
  | [], els => by intro h; exact absurd h (by simp [firstMatch])
  | sel :: rest, els => by
      intro h
      simp only [firstMatch] at h
      simp only [extractLoopP0]
      by_cases hq : 0 < (qsaDoc d sel).length
      · rw [if_pos hq] at h
        rw [if_pos hq]
        injection h with h
        rw [h]
      · rw [if_neg hq] at h
        rw [if_neg hq]
        exact extractLoopP0_of_firstMatch d rest els h

theorem parseLoopJS_of_firstMatch (d : Doc) :
    ∀ (L : List Sel) (els : List Node), firstMatch d L = some els →
      parseLoopJS d L = buildChaptersJS els.enum
  | [], els => by intro h; exact absurd h (by simp [firstMatch])
  | sel :: rest, els => by
      intro h
      simp only [firstMatch] at h
      simp only [parseLoopJS]
      by_cases hq : 0 < (qsaDoc d sel).length
      · rw [if_pos hq] at h
        rw [if_pos hq]
        injection h with h
        rw [h]
      · rw [if_neg hq] at h
        rw [if_neg hq]
        exact parseLoopJS_of_firstMatch d rest els h

theorem loopsNilOfNoMatch (d : Doc) :
    ∀ (L : List Sel), firstMatch d L = none →
      extractLoopP0 d L = [] ∧ parseLoopJS d L = []
  | [] => by intro h; exact ⟨by simp [extractLoopP0], by simp [parseLoopJS]⟩
  | sel :: rest => by
      intro h
      simp only [firstMatch] at h
      by_cases hq : 0 < (qsaDoc d sel).length
      · rw [if_pos hq] at h
        exact absurd h (by simp)
      · rw [if_neg hq] at h
        have ih := loopsNilOfNoMatch d rest h
        simp only [extractLoopP0, parseLoopJS]
        rw [if_neg hq, if_neg hq]
        exact ih

/-- C1 (amended): when some selector matches, the p0 extraction returns
exactly one chapter per element matched by the first matching selector,
in document order, and nothing from any later selector; the reader.js
extraction returns exactly the chapters its guarded loop builds over
those same elements, which keeps one chapter per matched element whose
raw inner markup is nonempty and, when every matched element is empty,
degrades to the single whole-body fallback chapter. -/
theorem c1_first_match_wins (d : Doc) (els : List Node)
    (h : firstMatch d cfgSelectors = some els) :
    extractChapters d = chaptersFromEls els
    ∧ (parseNovelHTML d).chapters =
        (if (buildChaptersJS els.enum).isEmpty then [fallbackChapterJS d]
         else buildChaptersJS els.enum) := by
  have hpos := firstMatch_pos d cfgSelectors els h
  have h1 := extractLoopP0_of_firstMatch d cfgSelectors els h
  have h2 := parseLoopJS_of_firstMatch d cfgSelectors els h
  constructor
  · have hlen : (chaptersFromEls els).length = els.length := by
      simp [chaptersFromEls]
    have hne : (chaptersFromEls els).isEmpty = false := by
      cases hcs : chaptersFromEls els with
      | nil => rw [hcs] at hlen; simp at hlen; omega
      | cons a l => rfl
    simp [extractChapters, h1, hne]
  · simp only [parseNovelHTML, h2]

/-- C1 counterexample input: the first selector matches two section
elements, the first of which has empty inner markup. -/
def exC1 : Doc :=
  ⟨("T"), Node.elem ("body") []
    [ Node.elem ("section") [(("class"), ("chapter"))] [],
      Node.elem ("section") [(("class"), ("chapter"))] [Node.text ("x")] ]⟩

/-- C1 counterexample: reader.js does not return one chapter per element
matched by the first matching selector: on exC1 the first selector
matches two elements yet parseNovelHTML returns a single chapter. -/
theorem c1_cex :
    (firstMatch exC1 cfgSelectors).map List.length = some 2
    ∧ (parseNovelHTML exC1).chapters.length = 1 := by
  exact ⟨by rfl, by rfl⟩

/-- C1 witness input: two chapter sections around an article, so the
first selector wins and the article selector is never consulted. -/
def exC1w : Doc :=
  ⟨("T"), Node.elem ("body") []
    [ Node.elem ("section") [(("class"), ("chapter"))] [Node.text ("a")],
      Node.elem ("article") [] [Node.text ("c")],
      Node.elem ("section") [(("class"), ("chapter"))] [Node.text ("b")] ]⟩

/-- C1 witness: the amended theorem applied to exC1w, whose first match
set holds the two chapter sections in document order and not the
article. -/
theorem c1_witness :
    extractChapters exC1w = chaptersFromEls
      [ Node.elem ("section") [(("class"), ("chapter"))] [Node.text ("a")],
        Node.elem ("section") [(("class"), ("chapter"))] [Node.text ("b")] ]
    ∧ extractChapters exC1w
      = [⟨("Chapter 1"), ("a")⟩, ⟨("Chapter 2"), ("b")⟩] := by
  have h := (c1_first_match_wins exC1w
    [ Node.elem ("section") [(("class"), ("chapter"))] [Node.text ("a")],
      Node.elem ("section") [(("class"), ("chapter"))] [Node.text ("b")] ] (by rfl)).1
  exact ⟨h, by rw [h]; decide⟩

/-- C4: a document matched by no selector yields exactly one chapter
holding the sanitized full body in both variants, and every extraction
result has at least one chapter. -/
theorem c4_fallback :
    (∀ d : Doc, firstMatch d cfgSelectors = none →
        extractChapters d = [⟨("Chapter 1"), sanitizeContentP0 d.body.childrenOf⟩]
        ∧ (parseNovelHTML d).chapters = [fallbackChapterJS d])
    ∧ ∀ d : Doc, 1 ≤ (extractChapters d).length
        ∧ 1 ≤ (parseNovelHTML d).chapters.length := by
  constructor
  · intro d h
    have hn := loopsNilOfNoMatch d cfgSelectors h
    exact ⟨by simp [extractChapters, hn.1], by simp [parseNovelHTML, hn.2]⟩
  · intro d
    constructor
    · cases hc : extractLoopP0 d cfgSelectors with
      | nil => simp [extractChapters, hc]
      | cons a l => simp [extractChapters, hc]
    · cases hc : parseLoopJS d cfgSelectors with
      | nil => simp [parseNovelHTML, hc]
      | cons a l => simp [parseNovelHTML, hc]

/-- C4 witness input: a body with a single paragraph, matched by no
selector. -/
def exC4 : Doc :=
  ⟨("My Novel"), Node.elem ("body") [] [Node.elem ("p") [] [Node.text ("hi")]]⟩

/-- C4 witness: the fallback theorem applied to exC4. -/
theorem c4_witness :
    extractChapters exC4 = [⟨("Chapter 1"), ("<p>hi</p>")⟩] := by
  have h := (c4_fallback.1 exC4 (by rfl)).1
  rw [h]
  decide

theorem noDangerousL_append (xs ys : List Node) :
    noDangerousL (xs ++ ys) = (noDangerousL xs && noDangerousL ys) := by
  induction xs with
  | nil => simp [noDangerousL]
  | cons n rest ih => simp [noDangerousL, ih, Bool.and_assoc]

theorem removeDangerousL_append (xs ys : List Node) :
    removeDangerousL (xs ++ ys) = removeDangerousL xs ++ removeDangerousL ys := by
  induction xs with
  | nil => simp [removeDangerousL]
  | cons n rest ih => simp [removeDangerousL, ih]

mutual

theorem noDang_removeN : ∀ (n : Node), noDangerousL (removeDangerousN n) = true
  | Node.text s => by simp [removeDangerousN, noDangerousL, noDangerousN]
  | Node.elem t a c => by
      by_cases h : t ∈ dangerousTags
      · simp [removeDangerousN, h, noDangerousL]
      · simp [removeDangerousN, h, noDangerousL, noDangerousN, noDang_removeL c]

theorem noDang_removeL : ∀ (ns : List Node), noDangerousL (removeDangerousL ns) = true
  | [] => by simp [removeDangerousL, noDangerousL]
  | n :: rest => by
      simp [removeDangerousL, noDangerousL_append, noDang_removeN n, noDang_removeL rest]

end

/-- C2 (amended): the fallback sanitizer of p0 leaves no script, style,
iframe, object or embed element at any depth of its output, for every
input fragment; it does not filter attributes, so the attribute clauses
of the original claim do not hold. -/
theorem c2_sanitize_no_dangerous :
    ∀ (ns : List Node), noDangerousL (removeDangerousL ns) = true :=
  noDang_removeL

/-- C2 counterexample: a data- attribute survives the p0 fallback
sanitizer, and reader.js sanitizeContent does not remove a style
element at all. -/
theorem c2_cex :
    hasDataAttrL (removeDangerousL [Node.elem ("p") [(("data-x"), ("1"))] []]) = true
    ∧ sanitizeContentJS ("<style>a</style>") = "<style>a</style>" := by
  exact ⟨by decide, by decide⟩

mutual

theorem remDang_idemN : ∀ (n : Node),
    removeDangerousL (removeDangerousN n) = removeDangerousN n
  | Node.text s => by simp [removeDangerousN, removeDangerousL]
  | Node.elem t a c => by
      by_cases h : t ∈ dangerousTags
      · simp [removeDangerousN, h, removeDangerousL]
      · simp [removeDangerousN, h, removeDangerousL, remDang_idemL c]

theorem remDang_idemL : ∀ (ns : List Node),
    removeDangerousL (removeDangerousL ns) = removeDangerousL ns
  | [] => by simp [removeDangerousL]
  | n :: rest => by
      simp [removeDangerousL, removeDangerousL_append, remDang_idemN n, remDang_idemL rest]

end

/-- C3 (amended): the fallback sanitizer of p0 is idempotent on every
fragment tree; the regex-based sanitizer of reader.js is the variant the
counterexample refutes. -/
theorem c3_sanitize_idem :
    ∀ (ns : List Node), removeDangerousL (removeDangerousL ns) = removeDangerousL ns :=
  remDang_idemL

/-- C3 counterexample: on split script markup one pass of the reader.js
regex sanitizer reassembles a script block, so a second pass removes
more: sanitize is not idempotent on strings. -/
theorem c3_cex :
    sanitizeContentJS ("<scr<script></script>ipt>x</script>") = "<script>x</script>"
    ∧ sanitizeContentJS (sanitizeContentJS ("<scr<script></script>ipt>x</script>")) = ""
    ∧ ¬ (sanitizeContentJS (sanitizeContentJS ("<scr<script></script>ipt>x</script>"))
          = sanitizeContentJS ("<scr<script></script>ipt>x</script>")) := by
  exact ⟨by decide, by decide, by decide⟩

/-- C5 (amended): with a novel loaded, an out-of-range index is a no-op
in both variants; in range, reader.js goToChapter moves to the chapter
with the fraction reset to zero, while p0 displayChapter moves to the
chapter keeping the current fraction unchanged instead of resetting it. -/
theorem c5_goto (n : Nat) (s : RState) (i : Int) :
    (¬ (0 ≤ i ∧ i < (n : Int)) →
        goToChapterJS n s i = s ∧ displayChapterP0 n s i = s)
    ∧ ((0 ≤ i ∧ i < (n : Int)) →
        goToChapterJS n s i = ⟨i, 0⟩
        ∧ displayChapterP0 n s i = ⟨i, s.currentPosition⟩) := by
  constructor
  · intro h
    have h2 : i < 0 ∨ (n : Int) ≤ i := by omega
    exact ⟨by simp [goToChapterJS, h], by simp [displayChapterP0, h2]⟩
  · intro h
    have h2 : ¬ (i < 0 ∨ (n : Int) ≤ i) := by omega
    exact ⟨by simp [goToChapterJS, h], by simp [displayChapterP0, h2]⟩

/-- C5 counterexample: p0 displayChapter entered at fraction one half
lands on the new chapter still at one half, not at the top. -/
theorem c5_cex :
    displayChapterP0 5 ⟨0, 1/2⟩ 1 = ⟨1, 1/2⟩
    ∧ displayChapterP0 5 ⟨0, 1/2⟩ 1 ≠ ⟨1, 0⟩ := by
  have h1 : displayChapterP0 5 ⟨0, 1/2⟩ 1 = ⟨1, 1/2⟩ := by
    norm_num [displayChapterP0]
  refine ⟨h1, ?_⟩
  rw [h1]
  intro hc
  have h2 := congrArg RState.currentPosition hc
  norm_num at h2

/-- C5 witness: the transition theorem applied at concrete states, one
out-of-range call and one in-range call. -/
theorem c5_witness :
    goToChapterJS 5 ⟨2, 3/4⟩ 7 = ⟨2, 3/4⟩ ∧ goToChapterJS 5 ⟨2, 3/4⟩ 1 = ⟨1, 0⟩ :=
  ⟨((c5_goto 5 ⟨2, 3/4⟩ 7).1 (by omega)).1,
   ((c5_goto 5 ⟨2, 3/4⟩ 1).2 (by omega)).1⟩

/-- C6: the progress-restoration scenario of the specification fails in
both variants: with a stored record for the same title at chapter 3 and
fraction 42 over 100, the reader.js load path lands on chapter 3 at
fraction 0, because displayChapter inside goToChapter zeroes the fraction
before the restore guard reads it, and the p0 load path lands on chapter
0 at fraction 0, because saveProgress inside displayChapter overwrites
the stored record before loadProgress reads it. The mismatched-title half
of the claim does hold. -/
theorem c6_progress_restore_bug :
    loadSequenceJS ("Foo") 5 ⟨0, 0⟩ (some ⟨("Foo"), 3, 42/100⟩) = ⟨3, 0⟩
    ∧ (loadSequenceP0 ("Foo") (some ⟨("Foo"), 3, 42/100⟩)).1 = ⟨0, 0⟩
    ∧ loadSequenceJS ("Bar") 5 ⟨0, 0⟩ (some ⟨("Foo"), 3, 42/100⟩) = ⟨0, 0⟩
    ∧ ¬ ((42 : ℚ)/100 = 0) := by
  refine ⟨by decide, by decide, by decide, by norm_num⟩

/-- C8 (amended): neither variant clamps; the stored fraction is the raw
ratio of the scroll metrics (rounded to four decimals in reader.js), and
it lies inside the unit interval whenever the metrics are in the range
the browser guarantees, namely a scroll offset between zero and the
maximum scroll offset. -/
theorem c8_scroll_bounds (st sh ch pos : ℚ)
    (h0 : 0 ≤ st) (h1 : st ≤ sh - ch) (hp0 : 0 ≤ pos) (hp1 : pos ≤ 1) :
    (0 ≤ handleScrollDebounced st sh ch ∧ handleScrollDebounced st sh ch ≤ 1)
    ∧ (0 ≤ updateProgressP0 st sh ch pos ∧ updateProgressP0 st sh ch pos ≤ 1) := by
  constructor
  · by_cases hlt : ch < sh
    · have hpos : (0 : ℚ) < sh - ch := by linarith
      have hr0 : 0 ≤ st / (sh - ch) := div_nonneg h0 (le_of_lt hpos)
      have hr1 : st / (sh - ch) ≤ 1 := (div_le_one hpos).mpr h1
      have hx0 : (0 : ℚ) ≤ st / (sh - ch) * 10000 := by nlinarith
      have hx1 : st / (sh - ch) * 10000 ≤ 10000 := by nlinarith
      have hj0 : 0 ≤ jsRound (st / (sh - ch) * 10000) := by
        rw [jsRound]
        exact Int.le_floor.mpr (by push_cast; linarith)
      have hj1 : jsRound (st / (sh - ch) * 10000) ≤ 10000 := by
        rw [jsRound]
        have := Int.floor_lt.mpr (show st / (sh - ch) * 10000 + 1 / 2 < ((10001 : ℤ) : ℚ) by
          push_cast; linarith)
        omega
      constructor
      · rw [handleScrollDebounced, if_pos hlt]
        apply div_nonneg _ (by norm_num)
        exact_mod_cast hj0
      · rw [handleScrollDebounced, if_pos hlt]
        rw [div_le_one (by norm_num)]
        exact_mod_cast hj1
    · rw [handleScrollDebounced, if_neg hlt]
      norm_num
  · by_cases hm : 0 < sh - ch
    · have hr0 : 0 ≤ st / (sh - ch) := div_nonneg h0 (le_of_lt hm)
      have hr1 : st / (sh - ch) ≤ 1 := (div_le_one hm).mpr h1
      rw [updateProgressP0, if_pos hm]
      exact ⟨hr0, hr1⟩
    · rw [updateProgressP0, if_neg hm]
      exact ⟨hp0, hp1⟩

/-- C8 counterexample: a fraction of minus one half is stored as minus
one half, not clamped to zero, and a fraction of seventeen tenths is
stored as seventeen tenths, not clamped to one. -/
theorem c8_cex :
    updateProgressP0 (-1) 3 1 0 = -(1/2)
    ∧ handleScrollDebounced (34/10) 3 1 = 17/10
    ∧ ¬ ((0 : ℚ) ≤ -(1/2))
    ∧ ¬ ((17 : ℚ)/10 ≤ 1) := by
  refine ⟨by norm_num [updateProgressP0], ?_, by norm_num, by norm_num⟩
  rw [handleScrollDebounced, if_pos (by norm_num)]
  norm_num [jsRound]

/-- C8 witness: the bounds theorem applied at concrete in-range scroll
metrics. -/
theorem c8_witness :
    0 ≤ handleScrollDebounced 1 3 1 ∧ handleScrollDebounced 1 3 1 ≤ 1 :=
  (c8_scroll_bounds 1 3 1 (1/2) (by norm_num) (by norm_num) (by norm_num)
    (by norm_num)).1

/-- C10: an unknown theme string and an unknown font string are silent
no-ops of both setters: the in-memory settings and the persisted record
are returned unchanged and nothing is written. -/
theorem c10_invalid_setting_noop (s : Settings) (store : Option Settings)
    (t f : String)
    (ht : cfgThemes.contains t = false) (hf : cfgFonts.contains f = false) :
    setTheme s store t = (s, store) ∧ setFont s store f = (s, store) := by
  constructor
  · rw [setTheme, if_neg (by simp_all)]
  · rw [setFont, if_neg (by simp_all)]

/-- C10 witness: the no-op theorem applied to the strings blue and
comic. -/
theorem c10_witness :
    setTheme ⟨("light"), ("serif"), 18⟩ none ("blue")
      = (⟨("light"), ("serif"), 18⟩, none)
    ∧ setFont ⟨("light"), ("serif"), 18⟩ none ("comic")
      = (⟨("light"), ("serif"), 18⟩, none) :=
  c10_invalid_setting_noop ⟨("light"), ("serif"), 18⟩ none ("blue") ("comic")
    (by decide) (by decide)

theorem findIndex_none_of_all {α : Type} (p : α → Bool) :
    ∀ (l : List α), (∀ b ∈ l, p b = false) → findIndex p l = none
  | [] => by intro _; rfl
  | a :: l => by
      intro h
      have ha := h a (by simp)
      rw [findIndex, if_neg (by simp [ha])]
      rw [findIndex_none_of_all p l (fun b hb => h b (by simp [hb]))]
      rfl

theorem findIndex_all_of_none {α : Type} (p : α → Bool) :
    ∀ (l : List α), findIndex p l = none → ∀ b ∈ l, p b = false
  | [] => by intro _ b hb; cases hb
  | a :: l => by
      intro h b hb
      by_cases hpa : p a = true
      · rw [findIndex, if_pos hpa] at h
        cases h
      · rw [findIndex, if_neg hpa] at h
        have hl : findIndex p l = none := by
          cases hfl : findIndex p l with
          | none => rfl
          | some j => rw [hfl] at h; simp at h
        rcases List.mem_cons.mp hb with rfl | hbl
        · simpa using hpa
        · exact findIndex_all_of_none p l hl b hbl

theorem findIndex_append_last {α : Type} (p : α → Bool) (x : α) (hx : p x = true) :
    ∀ (l : List α), (∀ b ∈ l, p b = false) → findIndex p (l ++ [x]) = some l.length
  | [] => by intro _; simp [findIndex, hx]
  | a :: l => by
      intro h
      have ha := h a (by simp)
      rw [List.cons_append, findIndex, if_neg (by simp [ha])]
      rw [findIndex_append_last p x hx l (fun b hb => h b (by simp [hb]))]
      rfl

theorem eraseIdx_append_at {α : Type} (x : α) (suf : List α) :
    ∀ (pre : List α), (pre ++ x :: suf).eraseIdx pre.length = pre ++ suf
  | [] => by simp
  | a :: pre => by
      simp [List.eraseIdx, eraseIdx_append_at x suf pre]

theorem findIndex_some_split {α : Type} (p : α → Bool) :
    ∀ (l : List α) (i : Nat), findIndex p l = some i →
      ∃ pre x suf, l = pre ++ x :: suf ∧ pre.length = i ∧ p x = true
        ∧ ∀ b ∈ pre, p b = false
  | [], i => by intro h; cases h
  | a :: l, i => by
      intro h
      by_cases hpa : p a = true
      · rw [findIndex, if_pos hpa] at h
        injection h with h
        exact ⟨[], a, l, by simp, by simp [← h], hpa, by simp⟩
      · rw [findIndex, if_neg hpa] at h
        cases hfl : findIndex p l with
        | none => rw [hfl] at h; cases h
        | some j =>
            rw [hfl] at h
            simp at h
            obtain ⟨pre, x, suf, hl, hlen, hpx, hpre⟩ := findIndex_some_split p l j hfl
            refine ⟨a :: pre, x, suf, by simp [hl], by simp [hlen, h], hpx, ?_⟩
            intro b hb
            rcases List.mem_cons.mp hb with rfl | hbp
            · simpa using hpa
            · exact hpre b hbp

theorem filter_nil_of_all {α : Type} (p : α → Bool) :
    ∀ (l : List α), (∀ b ∈ l, p b = false) → l.filter p = []
  | [] => by intro _; rfl
  | a :: l => by
      intro h
      rw [List.filter_cons_of_neg (by simp [h a (by simp)])]
      exact filter_nil_of_all p l (fun b hb => h b (by simp [hb]))

theorem filter_nil_all {α : Type} (p : α → Bool) :
    ∀ (l : List α), (l.filter p).length = 0 → ∀ b ∈ l, p b = false
  | [] => by intro _ b hb; cases hb
  | a :: l => by
      intro h b hb
      by_cases hpa : p a = true
      · rw [List.filter_cons_of_pos hpa] at h
        simp at h
      · rw [List.filter_cons_of_neg (by simp [hpa])] at h
        rcases List.mem_cons.mp hb with rfl | hbl
        · simpa using hpa
        · exact filter_nil_all p l h b hbl

/-- C7 (amended): with at most one bookmark of the current pair present,
toggleBookmark inserts a fresh record when the pair is absent and removes
every record of the pair when one is present; toggling twice restores the
original list exactly when the pair was absent, and in general restores
the multiset of bookmark keys, though not the records themselves, since
the reinserted bookmark carries a fresh timestamp and moves to the end. -/
theorem c7_toggle (bs : List Bookmark) (title chTitle : String) (cur n1 n2 : Nat)
    (huniq : (bs.filter (bmMatches title cur)).length ≤ 1) :
    ((∀ b ∈ bs, bmMatches title cur b = false) →
        toggleBookmark title cur chTitle n1 bs = bs ++ [⟨title, cur, chTitle, n1⟩]
        ∧ toggleBookmark title cur chTitle n2 (toggleBookmark title cur chTitle n1 bs) = bs)
    ∧ ((∃ b ∈ bs, bmMatches title cur b = true) →
        ∀ b ∈ toggleBookmark title cur chTitle n1 bs, bmMatches title cur b = false)
    ∧ ((toggleBookmark title cur chTitle n2
          (toggleBookmark title cur chTitle n1 bs)).map bmKey).Perm (bs.map bmKey) := by
  have hnew : ∀ m : Nat, bmMatches title cur ⟨title, cur, chTitle, m⟩ = true := by
    intro m
    simp [bmMatches]
  have hkey : ∀ b, bmMatches title cur b = true → bmKey b = (title, cur) := by
    intro b hb
    simp [bmMatches] at hb
    simp [bmKey, hb.1, hb.2]
  cases hfi : findIndex (bmMatches title cur) bs with
  | none =>
      have h0 := findIndex_all_of_none _ bs hfi
      have e1 : toggleBookmark title cur chTitle n1 bs
          = bs ++ [⟨title, cur, chTitle, n1⟩] := by
        rw [toggleBookmark, hfi]
      have hfi2 := findIndex_append_last _ _ (hnew n1) bs h0
      have e2 : toggleBookmark title cur chTitle n2 (bs ++ [⟨title, cur, chTitle, n1⟩])
          = bs := by
        rw [toggleBookmark, hfi2]
        have h3 := eraseIdx_append_at (⟨title, cur, chTitle, n1⟩ : Bookmark) [] bs
        simpa using h3
      refine ⟨fun _ => ⟨e1, by rw [e1, e2]⟩, ?_, by rw [e1, e2]⟩
      rintro ⟨b0, hmem, hb0⟩
      have hff := h0 b0 hmem
      rw [hff] at hb0
      cases hb0
  | some i =>
      obtain ⟨pre, x, suf, hsplit, hlen, hpx, hpre⟩ :=
        findIndex_some_split _ bs i hfi
      have hfpre := filter_nil_of_all _ pre hpre
      have hsuf : ∀ b ∈ suf, bmMatches title cur b = false := by
        apply filter_nil_all
        have hc := huniq
        rw [hsplit, List.filter_append, hfpre, List.filter_cons_of_pos hpx] at hc
        simp only [List.nil_append, List.length_cons] at hc
        omega
      have e1 : toggleBookmark title cur chTitle n1 bs = pre ++ suf := by
        rw [toggleBookmark, hfi, hsplit, ← hlen]
        exact eraseIdx_append_at x suf pre
      have hps : ∀ b ∈ pre ++ suf, bmMatches title cur b = false := by
        intro b hb
        rcases List.mem_append.mp hb with h | h
        · exact hpre b h
        · exact hsuf b h
      have hfi2 : findIndex (bmMatches title cur) (pre ++ suf) = none :=
        findIndex_none_of_all _ _ hps
      have e2 : toggleBookmark title cur chTitle n2 (pre ++ suf)
          = (pre ++ suf) ++ [⟨title, cur, chTitle, n2⟩] := by
        rw [toggleBookmark, hfi2]
      refine ⟨?_, fun _ => by rw [e1]; exact hps, ?_⟩
      · intro h0
        have hx2 := h0 x (by rw [hsplit]; exact List.mem_append.mpr (Or.inr (by simp)))
        rw [hpx] at hx2
        cases hx2
      · rw [e1, e2, hsplit]
        have hkx : bmKey x = (title, cur) := hkey x hpx
        have hkn : bmKey (⟨title, cur, chTitle, n2⟩ : Bookmark) = (title, cur) := by
          simp [bmKey]
        simp only [List.map_append, List.map_cons, hkx, hkn, List.append_assoc]
        exact List.Perm.append_left _ (List.perm_append_singleton (title, cur) _)

/-- C7 counterexample: toggling twice on a present pair replaces the
stored timestamp with the current time, so the original bookmark list is
not restored. -/
theorem c7_cex :
    toggleBookmark ("N") 0 ("T") 2 (toggleBookmark ("N") 0 ("T") 2 [⟨("N"), 0, ("T"), 1⟩])
      = [⟨("N"), 0, ("T"), 2⟩]
    ∧ toggleBookmark ("N") 0 ("T") 2 (toggleBookmark ("N") 0 ("T") 2 [⟨("N"), 0, ("T"), 1⟩])
      ≠ [⟨("N"), 0, ("T"), 1⟩] := by
  exact ⟨by decide, by decide⟩

/-- C7 witness: the toggle theorem applied to a one-element list not
holding the toggled pair. -/
theorem c7_witness :
    toggleBookmark ("N") 0 ("T") 7 [⟨("M"), 1, ("C"), 5⟩]
      = [⟨("M"), 1, ("C"), 5⟩, ⟨("N"), 0, ("T"), 7⟩]
    ∧ toggleBookmark ("N") 0 ("T") 9 (toggleBookmark ("N") 0 ("T") 7 [⟨("M"), 1, ("C"), 5⟩])
      = [⟨("M"), 1, ("C"), 5⟩] :=
  (c7_toggle [⟨("M"), 1, ("C"), 5⟩] ("N") ("T") 0 7 9 (by decide)).1 (by decide)

theorem invAA_check (s : AAState) (st ch sh : Int) (h : invAA s) :
    invAA (checkAutoAdvance s st ch sh) := by
  rw [checkAutoAdvance]
  by_cases h1 : s.numChapters ≤ s.currentChapter + 1
  · rw [if_pos h1]
    exact h
  · rw [if_neg h1]
    by_cases h2 : sh - 100 ≤ st + ch
    · rw [if_pos h2]
      rcases h with ⟨hs, hl⟩ | ⟨i, hs, hl⟩
      · right
        refine ⟨s.nextId, rfl, ?_⟩
        simp [hs, hl]
      · right
        refine ⟨s.nextId, rfl, ?_⟩
        simp [hs, hl]
    · rw [if_neg h2]
      rcases h with ⟨hs, hl⟩ | ⟨i, hs, hl⟩
      · rw [hs]
        exact Or.inl ⟨hs, hl⟩
      · rw [hs]
        left
        refine ⟨rfl, ?_⟩
        simp [hl]

theorem invAA_fire (s : AAState) (tid : Nat) (h : invAA s) :
    invAA (fireAutoAdvance s tid) := by
  rw [fireAutoAdvance]
  rcases h with ⟨hs, hl⟩ | ⟨i, hs, hl⟩
  · rw [hl]
    simp only [List.contains_nil, Bool.false_eq_true, if_false]
    exact Or.inl ⟨hs, hl⟩
  · by_cases he : s.live.contains tid = true
    · rw [if_pos he]
      rw [hl] at he
      simp at he
      by_cases hc : s.currentChapter + 1 < s.numChapters
      · rw [if_pos hc]
        left
        refine ⟨rfl, ?_⟩
        simp [hl, he]
      · rw [if_neg hc]
        left
        refine ⟨rfl, ?_⟩
        simp [hl, he]
    · rw [if_neg he]
      exact Or.inr ⟨i, hs, hl⟩

theorem invAA_run : ∀ (evs : List AAEvent) (s : AAState), invAA s → invAA (runAA s evs)
  | [] => fun _ h => h
  | e :: evs => fun s h => by
      have h1 : invAA (stepAA s e) := by
        cases e with
        | scroll st ch sh => exact invAA_check s st ch sh h
        | fire tid => exact invAA_fire s tid h
      exact invAA_run evs (stepAA s e) h1

/-- C9: in every reachable state of the auto-advance machine at most one
pending timer exists, and a debounced scroll sample below the near-bottom
threshold cancels the pending advance while the current chapter is not
the last, leaving the current chapter unchanged even if the runtime
attempts to fire a timer afterwards. -/
theorem c9_auto_advance :
    (∀ (n : Nat) (evs : List AAEvent),
        invAA (runAA (initAA n) evs) ∧ (runAA (initAA n) evs).live.length ≤ 1)
    ∧ (∀ (s : AAState) (st ch sh : Int), invAA s → st + ch < sh - 100 →
        (checkAutoAdvance s st ch sh).currentChapter = s.currentChapter
        ∧ (s.currentChapter + 1 < s.numChapters →
            (checkAutoAdvance s st ch sh).live = []
            ∧ (checkAutoAdvance s st ch sh).slot = none)
        ∧ ∀ tid, (fireAutoAdvance (checkAutoAdvance s st ch sh) tid).currentChapter
            = s.currentChapter) := by
  constructor
  · intro n evs
    have hinv : invAA (runAA (initAA n) evs) :=
      invAA_run evs (initAA n) (Or.inl ⟨rfl, rfl⟩)
    refine ⟨hinv, ?_⟩
    rcases hinv with ⟨_, hl⟩ | ⟨i, _, hl⟩
    · rw [hl]
      exact Nat.zero_le 1
    · rw [hl]
      exact Nat.le_refl 1
  · intro s st ch sh hinv hbelow
    have hnear : ¬ (sh - 100 ≤ st + ch) := by omega
    by_cases h1 : s.numChapters ≤ s.currentChapter + 1
    · have hc : checkAutoAdvance s st ch sh = s := by
        rw [checkAutoAdvance, if_pos h1]
      rw [hc]
      refine ⟨rfl, fun h2 => absurd h2 (by omega), ?_⟩
      intro tid
      rw [fireAutoAdvance]
      by_cases he : s.live.contains tid = true
      · rw [if_pos he, if_neg (by omega)]
      · rw [if_neg he]
    · have hc : checkAutoAdvance s st ch sh
          = (match s.slot with
             | some i => { s with live := s.live.erase i, slot := none }
             | none => s) := by
        rw [checkAutoAdvance, if_neg h1, if_neg hnear]
      rcases hinv with ⟨hs, hl⟩ | ⟨i, hs, hl⟩
      · rw [hc, hs]
        refine ⟨rfl, fun _ => ⟨hl, hs⟩, ?_⟩
        intro tid
        rw [fireAutoAdvance, hl]
        simp only [List.contains_nil, Bool.false_eq_true, if_false]
      · rw [hc, hs]
        refine ⟨rfl, fun _ => ⟨by simp [hl], rfl⟩, ?_⟩
        intro tid
        rw [fireAutoAdvance]
        simp only [hl, List.erase_cons_head]
        simp only [List.contains_nil, Bool.false_eq_true, if_false]

/-- C9 witness: a run reaching the near-bottom state, scrolling back up,
and then firing, applied to the cancellation theorem at a concrete
pending state. -/
theorem c9_witness :
    invAA (runAA (initAA 3) [AAEvent.scroll 900 80 1000, AAEvent.scroll 100 80 1000,
        AAEvent.fire 0])
    ∧ (checkAutoAdvance ⟨0, 3, some 0, [0], 1⟩ 100 80 1000).live = []
    ∧ (fireAutoAdvance (checkAutoAdvance ⟨0, 3, some 0, [0], 1⟩ 100 80 1000) 0).currentChapter
        = 0 := by
  refine ⟨(c9_auto_advance.1 3 [AAEvent.scroll 900 80 1000, AAEvent.scroll 100 80 1000,
      AAEvent.fire 0]).1, ?_, ?_⟩
  · exact ((c9_auto_advance.2 ⟨0, 3, some 0, [0], 1⟩ 100 80 1000
      (Or.inr ⟨0, rfl, rfl⟩) (by omega)).2.1 (by decide)).1
  · exact (c9_auto_advance.2 ⟨0, 3, some 0, [0], 1⟩ 100 80 1000
      (Or.inr ⟨0, rfl, rfl⟩) (by omega)).2.2 0
